import Mathlib
/-!
Verification of the Taskline version-metadata protocol.

Strings from the Rust sources are modelled as `List Char`; `u32` values are
modelled as `Nat` with an explicit `% 4294967296` wherever the Rust code can
overflow.  The definitions below are direct translations of:

* `src/lib.rs` — `Version`, `TasklineMetadata`;
* `taskline-bump/src/main.rs` — `BumpType`, `parse_version_fast`, the bump
  engine body of `main`;
* `taskline-init/src/main.rs` — `validate_version` and the header written at
  initialization.
-/
namespace Taskline
/-- The constant `2^32`, the modulus of Rust's `u32` arithmetic. -/
def u32Mod : Nat := 4294967296
/-- Numeric value of an ASCII digit character (Rust `byte - b'0'`). -/
def digitVal (c : Char) : Nat := c.toNat - 48
/-- The decimal digit character for `n < 10`. -/
def decDigit (n : Nat) : Char :=
  match n with
  | 0 => '0' | 1 => '1' | 2 => '2' | 3 => '3' | 4 => '4'
  | 5 => '5' | 6 => '6' | 7 => '7' | 8 => '8' | _ => '9'
/-- Value of a digit string read left to right (Rust integer accumulation). -/
def digitsVal (s : List Char) : Nat := s.foldl (fun a c => a * 10 + digitVal c) 0
/-- Fuel-driven digit accumulator (structural recursion so that the kernel
can evaluate it). -/
def natDecAux : Nat → Nat → List Char → List Char
  | 0, _, acc => acc
  | fuel + 1, n, acc =>
    if n < 10 then decDigit n :: acc
    else natDecAux fuel (n / 10) (decDigit (n % 10) :: acc)
/-- Decimal rendering of a `Nat`, most significant digit first
(the output of Rust's `Display` for unsigned integers). -/
def natDecDigits (n : Nat) : List Char := natDecAux (n + 1) n []
/-- Split a character list at every occurrence of `sep`
(the behaviour of Rust's `str::split` on a one-character pattern:
the empty text splits to one empty piece, separators at the ends produce
empty pieces). -/
def splitOnChar (sep : Char) : List Char → List (List Char)
  | [] => [[]]
  | c :: cs =>
    match splitOnChar sep cs with
    | [] => [[]]
    | r :: rs => if c = sep then [] :: r :: rs else (c :: r) :: rs
/-- Drop a single trailing carriage return (what Rust's `str::lines` does to
each line terminated by a CRLF pair). -/
def stripCR (l : List Char) : List Char :=
  if l.getLast? = some '\r' then l.dropLast else l
/-- Reassemble the pieces produced by splitting on the newline character:
every piece except the last was newline-terminated and gets its trailing
carriage return stripped; a final empty piece (from a trailing newline)
yields no line. -/
def rustLinesGo : List (List Char) → List (List Char)
  | [] => []
  | [last] => if last = [] then [] else [last]
  | p :: ps => stripCR p :: rustLinesGo ps
/-- Rust's `str::lines`: split at newline characters, strip one carriage
return before each split point, no trailing empty line. -/
def rustLines (s : List Char) : List (List Char) :=
  rustLinesGo (splitOnChar '\n' s)
/-- Strip one leading plus sign (accepted by Rust's unsigned `from_str`). -/
def stripPlus (s : List Char) : List Char :=
  match s with
  | c :: rest => if c = '+' then rest else c :: rest
  | [] => []
/-- Rust's `u32::from_str` (`str::parse` at `u32`): an optional plus sign,
then one or more ASCII digits, value below `2^32`. -/
def parseU32 (s : List Char) : Option Nat :=
  let t := stripPlus s
  if t.isEmpty then none
  else if t.all Char.isDigit then
    if digitsVal t < u32Mod then some (digitsVal t) else none
  else none
/-- The version value type from `src/lib.rs` (`u32` fields modelled as `Nat`;
every value the code constructs keeps them below `2^32`). -/
structure Version where
  major : Nat
  minor : Nat
  patch : Nat
deriving DecidableEq, Repr
/-- Model of `Version::parse` from `src/lib.rs`: a leading letter v, exactly three
dot-separated pieces, each parsed by `u32::from_str`. -/
def Version.parse (s : List Char) : Option Version :=
  match s with
  | c :: rest =>
    if c = 'v' then
      match splitOnChar '.' rest with
      | [p0, p1, p2] =>
        match parseU32 p0, parseU32 p1, parseU32 p2 with
        | some a, some b, some c2 => some ⟨a, b, c2⟩
        | _, _, _ => none
      | _ => none
    else none
  | [] => none
/-- The `Display` impl for `Version`: `v<major>.<minor>.<patch>`. -/
def Version.format (v : Version) : List Char :=
  'v' :: (natDecDigits v.major ++ '.' :: (natDecDigits v.minor ++ '.' :: natDecDigits v.patch))
/-- Model of `Version::bump_patch` (`u32` addition, hence the modulus). -/
def Version.bump_patch (v : Version) : Version :=
  ⟨v.major, v.minor, (v.patch + 1) % u32Mod⟩
/-- Model of `Version::bump_minor`. -/
def Version.bump_minor (v : Version) : Version :=
  ⟨v.major, (v.minor + 1) % u32Mod, 0⟩
/-- Model of `Version::bump_major`. -/
def Version.bump_major (v : Version) : Version :=
  ⟨(v.major + 1) % u32Mod, 0, 0⟩
/-- The codename header marker (19 characters). -/
def cTag : List Char := "@Taskline codename ".data
/-- The version header marker (18 characters). -/
def vTag : List Char := "@Taskline version ".data
/-- File metadata from `src/lib.rs`. -/
structure TasklineMetadata where
  codename : List Char
  version : Option Version
deriving DecidableEq, Repr
/-- One iteration of the loop body of `TasklineMetadata::parse`. -/
def parseStep (acc : TasklineMetadata) (line : List Char) : TasklineMetadata :=
  if cTag.isPrefixOf line then { acc with codename := line.drop 19 }
  else if vTag.isPrefixOf line then
    match Version.parse (line.drop 18) with
    | some v => { acc with version := some v }
    | none => acc
  else acc
/-- Model of `TasklineMetadata::parse` from `src/lib.rs`: scan all lines, assigning the
codename from each codename-marked line and the version from each
version-marked line whose value `Version::parse` accepts. -/
def TasklineMetadata.parse (content : List Char) : TasklineMetadata :=
  (rustLines content).foldl parseStep ⟨[], none⟩
/-- Model of `TasklineMetadata::to_header` from `src/lib.rs`. -/
def TasklineMetadata.to_header (m : TasklineMetadata) : List Char :=
  match m.version with
  | some v => cTag ++ m.codename ++ '\n' :: (vTag ++ Version.format v ++ ['\n', '\n'])
  | none => cTag ++ m.codename ++ ['\n', '\n']
/-- The bump kind from `taskline-bump/src/main.rs`. -/
inductive BumpType where
  | patch
  | minor
  | major
deriving DecidableEq, Repr
/-- Model of `BumpType::from_str_fast`: byte comparison against the three tags. -/
def BumpType.from_str_fast (s : List Char) : Option BumpType :=
  if s = "..x".data then some BumpType.patch
  else if s = ".x.".data then some BumpType.minor
  else if s = "x..".data then some BumpType.major
  else none
/-- UTF-8 byte count of one character (Rust strings are byte slices). -/
def charBytes (c : Char) : Nat :=
  if c.toNat < 128 then 1 else if c.toNat < 2048 then 2
  else if c.toNat < 65536 then 3 else 4
/-- UTF-8 byte length of a character list (Rust `str::len`). -/
def utf8Len (l : List Char) : Nat := (l.map charBytes).sum
/-- The byte loop of `parse_version_fast`: digits accumulate into `num` with
`u32` wrap-around, a dot stores the current segment (a third dot aborts), any
other byte breaks; the result is accepted only with exactly two dots seen. -/
def pvfScan : List Char → Nat → Nat → Nat → Nat → Option (Nat × Nat × Nat)
  | [], pi, p0, p1, num => if pi = 2 then some (p0, p1, num) else none
  | c :: cs, pi, p0, p1, num =>
    if c.isDigit then pvfScan cs pi p0 p1 ((num * 10 + digitVal c) % u32Mod)
    else if c = '.' then
      if 2 ≤ pi then none
      else if pi = 0 then pvfScan cs 1 num p1 0
      else pvfScan cs 2 p0 num 0
    else
      if pi = 2 then some (p0, p1, num) else none
/-- Model of `parse_version_fast` from `taskline-bump/src/main.rs`: byte-length
pre-check (marker length 18 plus the 5 bytes of the shortest version text),
marker check, then the scanning loop. -/
def parse_version_fast (line : List Char) : Option (Nat × Nat × Nat) :=
  if utf8Len line < 23 then none
  else if vTag.isPrefixOf line then pvfScan (line.drop 18) 0 0 0 0
  else none
/-- The version-line scan of the bump engine's `main`: index and parsed triple
of the first line `parse_version_fast` accepts. -/
def findVersionLine : List (List Char) → Option (Nat × (Nat × Nat × Nat))
  | [] => none
  | l :: ls =>
    match parse_version_fast l with
    | some v => some (0, v)
    | none =>
      match findVersionLine ls with
      | some (i, v) => some (i + 1, v)
      | none => none
/-- The bump arithmetic in the bump engine's `main` (`u32` additions). -/
def applyBump : BumpType → Nat × Nat × Nat → Nat × Nat × Nat
  | BumpType.patch, (a, b, c) => (a, b, (c + 1) % u32Mod)
  | BumpType.minor, (a, b, _) => (a, (b + 1) % u32Mod, 0)
  | BumpType.major, (a, _, _) => ((a + 1) % u32Mod, 0, 0)
/-- The new version line the bump engine builds: the version marker followed
by `<major>.<minor>.<patch>` (no letter v). -/
def buildVersionLine (v : Nat × Nat × Nat) : List Char :=
  vTag ++ (natDecDigits v.1 ++ '.' :: (natDecDigits v.2.1 ++ '.' :: natDecDigits v.2.2))
/-- Model of `Vec::insert` at an index (only ever used at index 1 with length at least 2). -/
def listInsertAt (i : Nat) (x : List Char) (l : List (List Char)) : List (List Char) :=
  match i, l with
  | 0, l => x :: l
  | _ + 1, [] => [x]
  | n + 1, a :: l => a :: listInsertAt n x l
/-- The line rewrite of the bump engine's `main`: replace the found version
line in place, otherwise insert the new line at index 1 (when at least two
lines exist) or append it. -/
def bumpLines (bt : BumpType) (ls : List (List Char)) : List (List Char) :=
  match findVersionLine ls with
  | some (i, cur) => ls.set i (buildVersionLine (applyBump bt cur))
  | none =>
    let nl := buildVersionLine (applyBump bt (0, 0, 0))
    if 2 ≤ ls.length then listInsertAt 1 nl ls else ls ++ [nl]
/-- The joining loop of the bump engine's `main`: lines separated by a single
newline, no trailing newline. -/
def joinLines : List (List Char) → List Char
  | [] => []
  | [l] => l
  | l :: ls => l ++ '\n' :: joinLines ls
/-- The bump engine (`main` of `taskline-bump`), from format tag and file
content to the rewritten content and new version; `none` is an abort before
any write. -/
def bumpRun (fmt content : List Char) : Option (List Char × (Nat × Nat × Nat)) :=
  match BumpType.from_str_fast fmt with
  | none => none
  | some bt =>
    let ls := rustLines content
    let cur := match findVersionLine ls with
      | some x => x.2
      | none => (0, 0, 0)
    some (joinLines (bumpLines bt ls), applyBump bt cur)
/-- The file content after running the bump engine: unchanged when the run
aborts before writing. -/
def bumpFileState (fmt content : List Char) : List Char :=
  match bumpRun fmt content with
  | none => content
  | some (c2, _) => c2
/-- The character loop of `validate_version` from `taskline-init`: tracks the
dot count and whether the current part has digits. -/
def vvLoop : List Char → Nat → Bool → Bool
  | [], dc, hd => dc = 2 && hd
  | c :: cs, dc, hd =>
    if c = '.' then
      if !hd then false
      else if 2 < dc + 1 then false
      else vvLoop cs (dc + 1) false
    else if c.isDigit then vvLoop cs dc true
    else false
/-- Model of `validate_version` from `taskline-init/src/main.rs`: at least 5 bytes,
a leading letter v, then exactly two dots separating nonempty digit runs. -/
def validate_version (s : List Char) : Bool :=
  if utf8Len s < 5 then false
  else
    match s with
    | c :: rest => if c = 'v' then vvLoop rest 0 false else false
    | [] => false
/-- The header written by the `main` of `taskline-init` once validation has
passed: codename line, optional version line, blank line. -/
def initHeader (filename : List Char) (ver : Option (List Char)) : List Char :=
  match ver with
  | some v => cTag ++ filename ++ '\n' :: (vTag ++ v ++ ['\n', '\n'])
  | none => cTag ++ filename ++ ['\n', '\n']
/-- Digit accumulation with the `u32` wrap applied at every step, as the scan
loop of `parse_version_fast` does. -/
def foldMod (a : Nat) (s : List Char) : Nat :=
  s.foldl (fun x c => (x * 10 + digitVal c) % u32Mod) a
/-- A digit run's value reduced into `u32` range. -/
def digitsValMod (s : List Char) : Nat := digitsVal s % u32Mod
/-- The grammar `parse_version_fast` actually recognizes on the text after the
marker: a (possibly empty) digit run, a dot, a digit run, a dot, a digit run,
then either the end of the line or a character that is neither a digit nor a
dot; anything after that break character is ignored. -/
def fastVersionShape (vp : List Char) : Option (Nat × Nat × Nat) :=
  let s0 := vp.takeWhile Char.isDigit
  match vp.dropWhile Char.isDigit with
  | c0 :: r1 =>
    if c0 = '.' then
      let s1 := r1.takeWhile Char.isDigit
      match r1.dropWhile Char.isDigit with
      | c1 :: r2 =>
        if c1 = '.' then
          let s2 := r2.takeWhile Char.isDigit
          match r2.dropWhile Char.isDigit with
          | [] => some (digitsValMod s0, digitsValMod s1, digitsValMod s2)
          | d :: _ =>
            if d = '.' then none
            else some (digitsValMod s0, digitsValMod s1, digitsValMod s2)
        else none
      | [] => none
    else none
  | [] => none
/-- The version value contributed by one line of `TasklineMetadata::parse`
(mirrors the `else if` chain: a codename line never contributes). -/
def versionOfLine (l : List Char) : Option Version :=
  if cTag.isPrefixOf l then none
  else if vTag.isPrefixOf l then Version.parse (l.drop 18) else none
/-- Codename produced by a scan in which the LAST codename-marked line wins. -/
def lastCodename (ls : List (List Char)) : List Char :=
  match (ls.filter fun l => cTag.isPrefixOf l).getLast? with
  | some l => l.drop 19
  | none => []
/-- Version produced by a scan in which the LAST version-marked line with a
parseable value wins. -/
def lastVersion (ls : List (List Char)) : Option Version :=
  (ls.filterMap versionOfLine).getLast?
theorem natDecAux_acc (fuel : Nat) : ∀ n acc, natDecAux fuel n acc = natDecAux fuel n [] ++ acc := by
  induction fuel with
  | zero => intro n acc; rfl
  | succ f ih =>
    intro n acc
    simp only [natDecAux]
    split
    · rfl
    · rw [ih (n / 10), ih (n / 10) [decDigit (n % 10)]]
      simp
theorem natDecAux_extra : ∀ n f1 f2 acc, n < f1 → n < f2 →
    natDecAux f1 n acc = natDecAux f2 n acc := by
  intro n
  induction n using Nat.strong_induction_on with
  | _ n ih =>
    intro f1 f2 acc h1 h2
    cases f1 with
    | zero => omega
    | succ g1 =>
      cases f2 with
      | zero => omega
      | succ g2 =>
        simp only [natDecAux]
        split
        · rfl
        · exact ih (n / 10) (Nat.div_lt_self (by omega) (by omega)) g1 g2 _ (by omega) (by omega)
/-- The recursion `natDecDigits` actually satisfies. -/
theorem natDecDigits_eq (n : Nat) :
    natDecDigits n =
      if n < 10 then [decDigit n] else natDecDigits (n / 10) ++ [decDigit (n % 10)] := by
  unfold natDecDigits
  simp only [natDecAux]
  split
  · rfl
  · rw [natDecAux_acc]
    congr 1
    exact natDecAux_extra (n / 10) n (n / 10 + 1)  []
      (Nat.div_lt_self (by omega) (by omega)) (by omega)
theorem digitVal_decDigit {n : Nat} (h : n < 10) : digitVal (decDigit n) = n := by
  interval_cases n <;> rfl
theorem isDigit_decDigit {n : Nat} (h : n < 10) : (decDigit n).isDigit = true := by
  interval_cases n <;> rfl
theorem natDecDigits_ne_nil (n : Nat) : natDecDigits n ≠ [] := by
  rw [natDecDigits_eq]
  split <;> simp
theorem natDecDigits_all_digit (n : Nat) :
    ∀ c ∈ natDecDigits n, c.isDigit = true := by
  induction n using Nat.strong_induction_on with
  | _ n ih =>
    rw [natDecDigits_eq]
    split
    · next h =>
      intro c hc
      simp only [List.mem_singleton] at hc
      subst hc
      exact isDigit_decDigit h
    · next h =>
      intro c hc
      rcases List.mem_append.mp hc with h1 | h2
      · exact ih (n / 10) (Nat.div_lt_self (by omega) (by omega)) c h1
      · simp only [List.mem_singleton] at h2
        subst h2
        exact isDigit_decDigit (Nat.mod_lt _ (by omega))
theorem digitsVal_append_singleton (s : List Char) (c : Char) :
    digitsVal (s ++ [c]) = digitsVal s * 10 + digitVal c := by
  simp [digitsVal, List.foldl_append]
theorem digitsVal_natDecDigits (n : Nat) : digitsVal (natDecDigits n) = n := by
  induction n using Nat.strong_induction_on with
  | _ n ih =>
    rw [natDecDigits_eq]
    split
    · next h =>
      simp [digitsVal, digitVal_decDigit h]
    · next h =>
      rw [digitsVal_append_singleton,
        ih (n / 10) (Nat.div_lt_self (by omega) (by omega)),
        digitVal_decDigit (Nat.mod_lt _ (by omega))]
      omega
theorem not_isDigit_c {c : Char} (h : c.isDigit = true) : c ≠ '+' ∧ c ≠ '.' ∧ c ≠ '\n' ∧ c ≠ '\r' ∧ c ≠ 'v' := by
  refine ⟨?_, ?_, ?_, ?_, ?_⟩ <;> rintro rfl <;> simp [Char.isDigit] at h
theorem splitOnChar_ne_nil (sep : Char) (l : List Char) : splitOnChar sep l ≠ [] := by
  induction l with
  | nil => simp [splitOnChar]
  | cons c cs ih =>
    rcases h : splitOnChar sep cs with _ | ⟨r, rs⟩
    · exact absurd h ih
    · simp only [splitOnChar, h]
      split <;> simp
theorem splitOnChar_of_notMem {sep : Char} {l : List Char} (h : sep ∉ l) :
    splitOnChar sep l = [l] := by
  induction l with
  | nil => rfl
  | cons c cs ih =>
    have hc : c ≠ sep := fun hc => h (hc ▸ List.mem_cons_self c cs)
    have hcs : sep ∉ cs := fun hm => h (List.mem_cons_of_mem _ hm)
    simp only [splitOnChar, ih hcs]
    simp [fun hh => hc hh]
theorem splitOnChar_append {sep : Char} {l : List Char} (r : List Char) (h : sep ∉ l) :
    splitOnChar sep (l ++ sep :: r) = l :: splitOnChar sep r := by
  induction l with
  | nil =>
    simp only [List.nil_append, splitOnChar]
    rcases hr : splitOnChar sep r with _ | ⟨p, ps⟩
    · exact absurd hr (splitOnChar_ne_nil sep r)
    · simp
  | cons c cs ih =>
    have hc : c ≠ sep := fun hc => h (hc ▸ List.mem_cons_self c cs)
    have hcs : sep ∉ cs := fun hm => h (List.mem_cons_of_mem _ hm)
    simp only [List.cons_append, splitOnChar, List.append_eq]
    rw [ih hcs]
    simp [hc]
theorem parseU32_natDecDigits {n : Nat} (h : n < u32Mod) :
    parseU32 (natDecDigits n) = some n := by
  obtain ⟨d, ds, hds⟩ : ∃ d ds, natDecDigits n = d :: ds := by
    rcases hd : natDecDigits n with _ | ⟨d, ds⟩
    · exact absurd hd (natDecDigits_ne_nil n)
    · exact ⟨d, ds, rfl⟩
  have hall := natDecDigits_all_digit n
  have hd : d.isDigit = true := hall d (hds ▸ List.mem_cons_self d ds)
  have hplus : d ≠ '+' := (not_isDigit_c hd).1
  simp only [parseU32, hds, stripPlus, if_neg hplus]
  rw [if_neg (by simp), if_pos, if_pos]
  · rw [← hds, digitsVal_natDecDigits]
  · rw [← hds, digitsVal_natDecDigits]; exact h
  · rw [List.all_eq_true]
    intro c hc
    exact hall c (hds ▸ hc)
theorem dot_notMem_natDecDigits (n : Nat) : '.' ∉ natDecDigits n := by
  intro hm
  exact (not_isDigit_c (natDecDigits_all_digit n _ hm)).2.1 rfl
/-- Round trip of `Version::parse` after formatting, for components in `u32`
range. -/
theorem parse_format_roundtrip (v : Version) (h1 : v.major < u32Mod)
    (h2 : v.minor < u32Mod) (h3 : v.patch < u32Mod) :
    Version.parse (Version.format v) = some v := by
  simp only [Version.format, Version.parse, if_pos rfl]
  rw [splitOnChar_append _ (dot_notMem_natDecDigits _),
    splitOnChar_append _ (dot_notMem_natDecDigits _),
    splitOnChar_of_notMem (dot_notMem_natDecDigits _)]
  simp [parseU32_natDecDigits h1, parseU32_natDecDigits h2, parseU32_natDecDigits h3]
theorem foldMod_eq : ∀ (s : List Char) (b : Nat),
    foldMod (b % u32Mod) s = (s.foldl (fun x c => x * 10 + digitVal c) b) % u32Mod := by
  intro s
  induction s with
  | nil => intro b; rfl
  | cons c s ih =>
    intro b
    have h : (b % u32Mod * 10 + digitVal c) % u32Mod = (b * 10 + digitVal c) % u32Mod := by
      simp only [u32Mod]
      omega
    show foldMod ((b % u32Mod * 10 + digitVal c) % u32Mod) s = _
    rw [h]
    exact ih (b * 10 + digitVal c)
theorem foldMod_zero (s : List Char) : foldMod 0 s = digitsValMod s := by
  have h0 : (0 : Nat) = 0 % u32Mod := by simp
  rw [digitsValMod, digitsVal, h0]
  exact foldMod_eq s 0
theorem pvfScan_digits : ∀ (s : List Char), (∀ c ∈ s, c.isDigit = true) →
    ∀ (r : List Char) (pi p0 p1 num : Nat),
    pvfScan (s ++ r) pi p0 p1 num = pvfScan r pi p0 p1 (foldMod num s) := by
  intro s
  induction s with
  | nil => intro _ r pi p0 p1 num; rfl
  | cons c s ih =>
    intro hall r pi p0 p1 num
    have hc : c.isDigit = true := hall c (List.mem_cons_self c s)
    simp only [List.cons_append, pvfScan, hc, if_pos]
    exact ih (fun x hx => hall x (List.mem_cons_of_mem _ hx)) r pi p0 p1 _
theorem dropWhile_cons_head {p : Char → Bool} :
    ∀ {l : List Char} {c : Char} {cs : List Char}, l.dropWhile p = c :: cs → p c = false := by
  intro l
  induction l with
  | nil => intro c cs h; simp [List.dropWhile] at h
  | cons a l ih =>
    intro c cs h
    by_cases hp : p a
    · rw [List.dropWhile_cons_of_pos hp] at h
      exact ih h
    · rw [List.dropWhile_cons_of_neg hp] at h
      injection h with h1 h2
      subst h1
      simpa using hp
theorem mem_takeWhile_digit {l : List Char} :
    ∀ c ∈ l.takeWhile Char.isDigit, c.isDigit = true := by
  intro c hc
  exact List.mem_takeWhile_imp hc
theorem pvfScan_step (vp : List Char) (pi p0 p1 : Nat) :
    pvfScan vp pi p0 p1 0
      = pvfScan (vp.dropWhile Char.isDigit) pi p0 p1 (digitsValMod (vp.takeWhile Char.isDigit)) := by
  conv_lhs => rw [← List.takeWhile_append_dropWhile (p := Char.isDigit) (l := vp)]
  rw [pvfScan_digits _ mem_takeWhile_digit, foldMod_zero]
theorem pvfScan_nil (pi p0 p1 num : Nat) :
    pvfScan [] pi p0 p1 num = if pi = 2 then some (p0, p1, num) else none := rfl
theorem pvfScan_dot0 (cs : List Char) (p0 p1 num : Nat) :
    pvfScan ('.' :: cs) 0 p0 p1 num = pvfScan cs 1 num p1 0 := by
  have hd : '.'.isDigit = false := rfl
  simp [pvfScan, hd]
theorem pvfScan_dot1 (cs : List Char) (p0 p1 num : Nat) :
    pvfScan ('.' :: cs) 1 p0 p1 num = pvfScan cs 2 p0 num 0 := by
  have hd : '.'.isDigit = false := rfl
  simp [pvfScan, hd]
theorem pvfScan_dot2 (cs : List Char) (p0 p1 num : Nat) :
    pvfScan ('.' :: cs) 2 p0 p1 num = none := by
  have hd : '.'.isDigit = false := rfl
  simp [pvfScan, hd]
theorem pvfScan_break (c : Char) (cs : List Char) (pi p0 p1 num : Nat)
    (h1 : c.isDigit = false) (h2 : c ≠ '.') :
    pvfScan (c :: cs) pi p0 p1 num = if pi = 2 then some (p0, p1, num) else none := by
  simp [pvfScan, h1, h2]
/-- The scanning loop computes exactly the `fastVersionShape` grammar. -/
theorem pvfScan_shape (vp : List Char) : pvfScan vp 0 0 0 0 = fastVersionShape vp := by
  rw [pvfScan_step]
  rcases h0 : vp.dropWhile Char.isDigit with _ | ⟨c0, r1⟩
  · rw [pvfScan_nil]
    simp [fastVersionShape, h0]
  · have hc0 : c0.isDigit = false := dropWhile_cons_head h0
    by_cases hd0 : c0 = '.'
    · subst hd0
      rw [pvfScan_dot0, pvfScan_step]
      rcases h1 : r1.dropWhile Char.isDigit with _ | ⟨c1, r2⟩
      · rw [pvfScan_nil]
        simp [fastVersionShape, h0, h1]
      · have hc1 : c1.isDigit = false := dropWhile_cons_head h1
        by_cases hd1 : c1 = '.'
        · subst hd1
          rw [pvfScan_dot1, pvfScan_step]
          rcases h2 : r2.dropWhile Char.isDigit with _ | ⟨d, r3⟩
          · rw [pvfScan_nil]
            simp [fastVersionShape, h0, h1, h2]
          · have hd : d.isDigit = false := dropWhile_cons_head h2
            by_cases hdd : d = '.'
            · subst hdd
              rw [pvfScan_dot2]
              simp [fastVersionShape, h0, h1, h2]
            · rw [pvfScan_break d r3 2 _ _ _ hd hdd]
              simp [fastVersionShape, h0, h1, h2, hdd]
        · rw [pvfScan_break c1 r2 1 _ _ _ hc1 hd1]
          simp [fastVersionShape, h0, h1, hd1]
    · rw [pvfScan_break c0 r1 0 _ _ _ hc0 hd0]
      simp [fastVersionShape, h0, hd0]
theorem foldl_parseStep (ls : List (List Char)) : ∀ acc : TasklineMetadata,
    (ls.foldl parseStep acc).codename
      = (match (ls.filter fun l => cTag.isPrefixOf l).getLast? with
         | some l => l.drop 19
         | none => acc.codename) ∧
    (ls.foldl parseStep acc).version
      = (match (ls.filterMap versionOfLine).getLast? with
         | some v => some v
         | none => acc.version) := by
  induction ls using List.reverseRecOn with
  | nil => intro acc; exact ⟨rfl, rfl⟩
  | append_singleton ls l ih =>
    intro acc
    rw [List.foldl_append]
    simp only [List.foldl_cons, List.foldl_nil]
    obtain ⟨ih1, ih2⟩ := ih acc
    rw [List.filter_append, List.filterMap_append]
    by_cases hf : cTag.isPrefixOf l
    · constructor
      · rw [show (parseStep (ls.foldl parseStep acc) l).codename = l.drop 19 by
          simp [parseStep, hf]]
        simp [hf, List.getLast?_concat]
      · rw [show (parseStep (ls.foldl parseStep acc) l).version
            = (ls.foldl parseStep acc).version by simp [parseStep, hf]]
        rw [show List.filterMap versionOfLine [l] = [] by simp [versionOfLine, hf]]
        simpa using ih2
    · by_cases hv : vTag.isPrefixOf l
      · rcases hp : Version.parse (l.drop 18) with _ | v
        · constructor
          · rw [show (parseStep (ls.foldl parseStep acc) l).codename
                = (ls.foldl parseStep acc).codename by simp [parseStep, hf, hv, hp]]
            rw [show (List.filter (fun l => cTag.isPrefixOf l) [l]) = [] by simp [hf]]
            simpa using ih1
          · rw [show (parseStep (ls.foldl parseStep acc) l).version
                = (ls.foldl parseStep acc).version by simp [parseStep, hf, hv, hp]]
            rw [show List.filterMap versionOfLine [l] = [] by simp [versionOfLine, hf, hv, hp]]
            simpa using ih2
        · constructor
          · rw [show (parseStep (ls.foldl parseStep acc) l).codename
                = (ls.foldl parseStep acc).codename by simp [parseStep, hf, hv, hp]]
            rw [show (List.filter (fun l => cTag.isPrefixOf l) [l]) = [] by simp [hf]]
            simpa using ih1
          · rw [show (parseStep (ls.foldl parseStep acc) l).version = some v by
              simp [parseStep, hf, hv, hp]]
            rw [show List.filterMap versionOfLine [l] = [v] by simp [versionOfLine, hf, hv, hp]]
            simp [List.getLast?_concat]
      · constructor
        · rw [show parseStep (ls.foldl parseStep acc) l = ls.foldl parseStep acc by
            simp [parseStep, hf, hv]]
          rw [show (List.filter (fun l => cTag.isPrefixOf l) [l]) = [] by simp [hf]]
          simpa using ih1
        · rw [show parseStep (ls.foldl parseStep acc) l = ls.foldl parseStep acc by
            simp [parseStep, hf, hv]]
          rw [show List.filterMap versionOfLine [l] = [] by simp [versionOfLine, hf, hv]]
          simpa using ih2
theorem newline_notMem_natDecDigits (n : Nat) : '\n' ∉ natDecDigits n := by
  intro hm
  have h := natDecDigits_all_digit n _ hm
  exact absurd h (by decide)
theorem newline_notMem_format (v : Version) : '\n' ∉ Version.format v := by
  intro hm
  rcases List.mem_cons.mp hm with h | hm
  · exact absurd h (by decide)
  rcases List.mem_append.mp hm with h | hm
  · exact newline_notMem_natDecDigits _ h
  rcases List.mem_cons.mp hm with h | hm
  · exact absurd h (by decide)
  rcases List.mem_append.mp hm with h | hm
  · exact newline_notMem_natDecDigits _ h
  rcases List.mem_cons.mp hm with h | hm
  · exact absurd h (by decide)
  · exact newline_notMem_natDecDigits _ hm
theorem getLast?_natDecDigits_digit (n : Nat) :
    ∃ d, (natDecDigits n).getLast? = some d ∧ d.isDigit = true := by
  rcases hq : (natDecDigits n).getLast? with _ | d
  · rw [List.getLast?_eq_none_iff] at hq
    exact absurd hq (natDecDigits_ne_nil n)
  · exact ⟨d, rfl, natDecDigits_all_digit n d (List.mem_of_mem_getLast? hq)⟩
theorem head_natDecDigits_digit (n : Nat) :
    ∃ d ds, natDecDigits n = d :: ds ∧ d.isDigit = true := by
  rcases h : natDecDigits n with _ | ⟨d, ds⟩
  · exact absurd h (natDecDigits_ne_nil n)
  · exact ⟨d, ds, rfl, natDecDigits_all_digit n d (h ▸ List.mem_cons_self d ds)⟩
theorem self_isPrefixOf_append (p t : List Char) : p.isPrefixOf (p ++ t) = true := by
  rw [List.isPrefixOf_iff_prefix]
  exact List.prefix_append p t
theorem drop_cTag (cn : List Char) : (cTag ++ cn).drop 19 = cn := by
  have h : cTag.length = 19 := rfl
  rw [← h, List.drop_left]
theorem drop_vTag (t : List Char) : (vTag ++ t).drop 18 = t := by
  have h : vTag.length = 18 := rfl
  rw [← h, List.drop_left]
theorem cTag_on_versionLine (t : List Char) : cTag.isPrefixOf (vTag ++ t) = false := by
  by_contra hb
  rw [Bool.not_eq_false, List.isPrefixOf_iff_prefix] at hb
  have h2 : cTag = (vTag ++ t).take cTag.length := List.prefix_iff_eq_take.mp hb
  have h3 := congrArg (List.take 18) h2
  rw [show cTag.length = 19 from rfl, List.take_take] at h3
  rw [show min 18 19 = 18 by omega] at h3
  rw [List.take_append_eq_append_take, show (18 : Nat) - vTag.length = 0 from rfl,
    List.take_zero, List.append_nil,
    show vTag.take 18 = vTag from rfl] at h3
  exact absurd h3 (by decide)
theorem vTag_on_codenameLine (t : List Char) : vTag.isPrefixOf (cTag ++ t) = false := by
  by_contra hb
  rw [Bool.not_eq_false, List.isPrefixOf_iff_prefix] at hb
  have h2 : vTag = (cTag ++ t).take vTag.length := List.prefix_iff_eq_take.mp hb
  rw [show vTag.length = 18 from rfl, List.take_append_eq_append_take,
    show (18 : Nat) - cTag.length = 0 from rfl,
    List.take_zero, List.append_nil] at h2
  exact absurd h2 (by decide)
theorem stripCR_of_cTag {cn : List Char} (hr : cn.getLast? ≠ some '\r') :
    stripCR (cTag ++ cn) = cTag ++ cn := by
  rcases hcn : cn with _ | ⟨c, cs⟩
  · subst hcn
    decide
  · rw [stripCR, if_neg]
    rw [List.getLast?_append_of_ne_nil _ (by simp)]
    rw [← hcn]
    exact hr
theorem stripCR_of_vTag (v : Version) :
    stripCR (vTag ++ Version.format v) = vTag ++ Version.format v := by
  obtain ⟨d, hd, hdig⟩ := getLast?_natDecDigits_digit v.patch
  rw [stripCR, if_neg]
  rw [List.getLast?_append_of_ne_nil _ (by simp [Version.format])]
  rw [show Version.format v
      = ('v' :: (natDecDigits v.major ++ '.' :: natDecDigits v.minor) ++ '.' :: [])
        ++ natDecDigits v.patch by simp [Version.format]]
  rw [List.getLast?_append_of_ne_nil _ (natDecDigits_ne_nil v.patch), hd]
  intro hcontra
  have := Option.some.injEq d '\r' ▸ hcontra
  simp only [Option.some.injEq] at hcontra
  subst hcontra
  exact absurd hdig (by decide)
/-- The lines of a rendered header: codename line, optional version line,
blank line. -/
theorem rustLines_to_header (m : TasklineMetadata)
    (hn : '\n' ∉ m.codename) (hr : m.codename.getLast? ≠ some '\r') :
    rustLines (TasklineMetadata.to_header m)
      = (match m.version with
         | some v => [cTag ++ m.codename, vTag ++ Version.format v, []]
         | none => [cTag ++ m.codename, []]) := by
  obtain ⟨cn, ver⟩ := m
  have hnc : '\n' ∉ cTag ++ cn := by
    intro hm
    rcases List.mem_append.mp hm with h | h
    · exact absurd h (by decide)
    · exact hn h
  rcases ver with _ | v
  · show rustLines (cTag ++ cn ++ ['\n', '\n']) = _
    have e1 : cTag ++ cn ++ ['\n', '\n'] = (cTag ++ cn) ++ '\n' :: ['\n'] := by
      simp
    rw [rustLines, e1, splitOnChar_append _ hnc,
      show splitOnChar '\n' ['\n'] = [[], []] from rfl]
    show stripCR (cTag ++ cn) :: rustLinesGo [[], []] = _
    rw [stripCR_of_cTag hr]
    rfl
  · show rustLines (cTag ++ cn ++ '\n' :: (vTag ++ Version.format v ++ ['\n', '\n'])) = _
    have hnv : '\n' ∉ vTag ++ Version.format v := by
      intro hm
      rcases List.mem_append.mp hm with h | h
      · exact absurd h (by decide)
      · exact newline_notMem_format v h
    have e1 : cTag ++ cn ++ '\n' :: (vTag ++ Version.format v ++ ['\n', '\n'])
        = (cTag ++ cn) ++ '\n' :: ((vTag ++ Version.format v) ++ '\n' :: ['\n']) := by
      simp
    rw [rustLines, e1, splitOnChar_append _ hnc, splitOnChar_append _ hnv,
      show splitOnChar '\n' ['\n'] = [[], []] from rfl]
    show stripCR (cTag ++ cn) :: (stripCR (vTag ++ Version.format v) :: rustLinesGo [[], []]) = _
    rw [stripCR_of_cTag hr, stripCR_of_vTag]
    rfl
theorem findVersionLine_none {ls : List (List Char)}
    (h : ∀ l ∈ ls, parse_version_fast l = none) : findVersionLine ls = none := by
  induction ls with
  | nil => rfl
  | cons l ls ih =>
    simp only [findVersionLine, h l (List.mem_cons_self l ls),
      ih fun x hx => h x (List.mem_cons_of_mem _ hx)]
theorem eraseIdx_set (l : List (List Char)) : ∀ (i : Nat) (x : List Char),
    (l.set i x).eraseIdx i = l.eraseIdx i := by
  induction l with
  | nil => intro i x; rfl
  | cons a l ih =>
    intro i x
    cases i with
    | zero => rfl
    | succ n =>
      show a :: (l.set n x).eraseIdx n = a :: l.eraseIdx n
      rw [ih]
theorem eraseIdx_append_singleton (l : List (List Char)) (x : List Char) :
    (l ++ [x]).eraseIdx l.length = l := by
  induction l with
  | nil => rfl
  | cons a l ih =>
    show a :: (l ++ [x]).eraseIdx l.length = a :: l
    rw [ih]
theorem parseStep_codenameLine (acc : TasklineMetadata) (cn : List Char) :
    parseStep acc (cTag ++ cn) = { acc with codename := cn } := by
  simp only [parseStep, self_isPrefixOf_append, if_true, drop_cTag]
theorem parseStep_versionLine (acc : TasklineMetadata) (v : Version)
    (h1 : v.major < u32Mod) (h2 : v.minor < u32Mod) (h3 : v.patch < u32Mod) :
    parseStep acc (vTag ++ Version.format v) = { acc with version := some v } := by
  simp only [parseStep, cTag_on_versionLine, self_isPrefixOf_append, drop_vTag,
    Bool.false_eq_true, if_false, if_true]
  rw [parse_format_roundtrip v h1 h2 h3]
theorem parseStep_nilLine (acc : TasklineMetadata) : parseStep acc [] = acc := by
  simp only [parseStep, show cTag.isPrefixOf [] = false from rfl,
    show vTag.isPrefixOf [] = false from rfl, Bool.false_eq_true, if_false]
/-- Claim C2, counterexample: `parse_version_fast` accepts a version line with
trailing non-digit characters after the third segment, and a line with an
empty first segment, so it does not recognize exactly the
three-all-digit-segment grammar. -/
theorem claim2_counterexample :
    parse_version_fast "@Taskline version 1.2.3x".data = some (1, 2, 3) ∧
    parse_version_fast "@Taskline version .1.23".data = some (0, 1, 23) := by
  decide
/-- Claim C2, amended: `parse_version_fast` accepts a line exactly when it has
at least 23 bytes, starts with the version marker, and the text after the
marker starts with digits-dot-digits-dot-digits where the digit runs may be
empty and are followed by the end of the line or by a character that is
neither a digit nor a dot (everything from that character on is ignored);
segment values are taken modulo `2^32`. -/
theorem claim2_amended (line : List Char) :
    parse_version_fast line
      = if 23 ≤ utf8Len line ∧ vTag.isPrefixOf line
        then fastVersionShape (line.drop 18) else none := by
  simp only [parse_version_fast]
  by_cases hlen : utf8Len line < 23
  · rw [if_pos hlen, if_neg (fun hcon => by omega)]
  · rw [if_neg hlen]
    by_cases hp : vTag.isPrefixOf line
    · rw [if_pos hp, if_pos ⟨by omega, hp⟩]
      exact pvfScan_shape _
    · rw [if_neg hp, if_neg (fun hcon => hp hcon.2)]
/-- Claim C4, counterexample: the tag `patch` is not accepted by the bump
engine; the accepted tags are `..x`, `.x.`, `x..`. -/
theorem claim4_counterexample :
    BumpType.from_str_fast "patch".data = none ∧
    bumpRun "patch".data "@Taskline codename demo".data = none := by
  decide
/-- Claim C4, amended: the bump engine accepts exactly the three mutually
exclusive tags `..x` (patch), `.x.` (minor) and `x..` (major), and any other
tag makes the run abort before any file access, leaving the file content
unchanged. -/
theorem claim4_amended (fmt : List Char) :
    ((BumpType.from_str_fast fmt).isSome = true ↔
      fmt = "..x".data ∨ fmt = ".x.".data ∨ fmt = "x..".data) ∧
    (BumpType.from_str_fast fmt = none →
      ∀ content, bumpRun fmt content = none ∧ bumpFileState fmt content = content) := by
  constructor
  · constructor
    · intro h
      by_cases h1 : fmt = "..x".data
      · exact Or.inl h1
      by_cases h2 : fmt = ".x.".data
      · exact Or.inr (Or.inl h2)
      by_cases h3 : fmt = "x..".data
      · exact Or.inr (Or.inr h3)
      · exfalso
        simp [BumpType.from_str_fast, h1, h2, h3] at h
    · rintro (rfl | rfl | rfl) <;> decide
  · intro h content
    constructor
    · simp only [bumpRun, h]
    · simp only [bumpFileState, bumpRun, h]
/-- Claim C4, witness: a rejected tag leaves the content unchanged. -/
theorem claim4_witness :
    bumpRun "major".data "abc".data = none ∧
    bumpFileState "major".data "abc".data = "abc".data :=
  (claim4_amended "major".data).2 (by decide) "abc".data
/-- Claim C7: formatting a version with components in `u32` range and parsing
the result gives back the same version. -/
theorem claim7_roundtrip (a b c : Nat) (ha : a < u32Mod) (hb : b < u32Mod)
    (hc : c < u32Mod) : Version.parse (Version.format ⟨a, b, c⟩) = some ⟨a, b, c⟩ :=
  parse_format_roundtrip ⟨a, b, c⟩ ha hb hc
/-- Claim C7, witness at `v1.2.3`. -/
theorem claim7_witness : Version.parse (Version.format ⟨1, 2, 3⟩) = some ⟨1, 2, 3⟩ :=
  claim7_roundtrip 1 2 3 (by decide) (by decide) (by decide)
/-- Claim C8, counterexample: at the largest `u32` patch value the `u32`
addition wraps, so `bump_patch` does not produce `patch + 1`. -/
theorem claim8_counterexample :
    (Version.bump_patch ⟨0, 0, 4294967295⟩).patch ≠ 4294967295 + 1 := by
  decide
/-- Claim C8, amended: in the absence of `u32` overflow, `bump_patch`
increments the patch and keeps major and minor, `bump_minor` increments the
minor and zeroes the patch, and `bump_major` increments the major and zeroes
minor and patch. -/
theorem claim8_amended (v : Version) :
    (v.patch + 1 < u32Mod → v.bump_patch = ⟨v.major, v.minor, v.patch + 1⟩) ∧
    (v.minor + 1 < u32Mod → v.bump_minor = ⟨v.major, v.minor + 1, 0⟩) ∧
    (v.major + 1 < u32Mod → v.bump_major = ⟨v.major + 1, 0, 0⟩) := by
  refine ⟨fun h => ?_, fun h => ?_, fun h => ?_⟩ <;>
    simp [Version.bump_patch, Version.bump_minor, Version.bump_major, Nat.mod_eq_of_lt h]
/-- Claim C8, witness at version `1.2.3`. -/
theorem claim8_witness :
    Version.bump_patch ⟨1, 2, 3⟩ = ⟨1, 2, 4⟩ ∧
    Version.bump_minor ⟨1, 2, 3⟩ = ⟨1, 3, 0⟩ ∧
    Version.bump_major ⟨1, 2, 3⟩ = ⟨2, 0, 0⟩ :=
  ⟨(claim8_amended ⟨1, 2, 3⟩).1 (by decide), (claim8_amended ⟨1, 2, 3⟩).2.1 (by decide),
    (claim8_amended ⟨1, 2, 3⟩).2.2 (by decide)⟩
/-- Claim C10: `Version::parse` accepts forms `Version::format` never emits —
a segment with leading zeros and a segment with a leading plus sign both parse
to the same value. -/
theorem claim10_permissive :
    Version.parse "v01.2.3".data = some ⟨1, 2, 3⟩ ∧
    Version.parse "v+1.2.3".data = some ⟨1, 2, 3⟩ := by
  decide
/-- Claim C1, counterexample: with two codename-marked lines,
`TasklineMetadata::parse` returns the value of the LAST one, not the first. -/
theorem claim1_counterexample :
    (TasklineMetadata.parse "@Taskline codename a\n@Taskline codename b".data).codename
      ≠ "a".data := by
  decide
/-- Claim C1, amended: `TasklineMetadata::parse` returns, for each field, the
value taken from the LAST matching line (for the version, the last
version-marked line whose value `Version::parse` accepts); earlier matching
lines are overwritten. -/
theorem claim1_last_wins (content : List Char) :
    TasklineMetadata.parse content
      = ⟨lastCodename (rustLines content), lastVersion (rustLines content)⟩ := by
  obtain ⟨h1, h2⟩ := foldl_parseStep (rustLines content) ⟨[], none⟩
  have hx : ∀ a b : TasklineMetadata, a.codename = b.codename → a.version = b.version → a = b := by
    intro a b ha hb
    cases a; cases b; simp_all
  apply hx
  · show ((rustLines content).foldl parseStep ⟨[], none⟩).codename = lastCodename (rustLines content)
    rw [h1, lastCodename]
  · show ((rustLines content).foldl parseStep ⟨[], none⟩).version = lastVersion (rustLines content)
    rw [h2, lastVersion]
    cases ((rustLines content).filterMap versionOfLine).getLast? <;> rfl
/-- Claim C6: when no line of the content is accepted by the version-line
scan, the bump engine works from version `(0,0,0)`, and the new version line
is placed at index 1 when the content has at least two lines, and appended as
the last line otherwise. -/
theorem claim6_absent_version (fmt content : List Char) (bt : BumpType)
    (hf : BumpType.from_str_fast fmt = some bt)
    (hn : ∀ l ∈ rustLines content, parse_version_fast l = none) :
    bumpRun fmt content
      = some (joinLines (bumpLines bt (rustLines content)), applyBump bt (0, 0, 0)) ∧
    (∀ a b t, rustLines content = a :: b :: t →
      bumpLines bt (rustLines content)
        = a :: buildVersionLine (applyBump bt (0, 0, 0)) :: b :: t) ∧
    (∀ a, rustLines content = [a] →
      bumpLines bt (rustLines content) = [a, buildVersionLine (applyBump bt (0, 0, 0))]) ∧
    (rustLines content = [] →
      bumpLines bt (rustLines content) = [buildVersionLine (applyBump bt (0, 0, 0))]) := by
  have hfv : findVersionLine (rustLines content) = none := findVersionLine_none hn
  refine ⟨?_, ?_, ?_, ?_⟩
  · simp only [bumpRun, hf, hfv]
  · intro a b t ht
    rw [ht] at hfv
    simp only [bumpLines, ht, hfv]
    rw [if_pos (by simp)]
    rfl
  · intro a ht
    rw [ht] at hfv
    simp only [bumpLines, ht, hfv]
    rw [if_neg (by simp)]
    rfl
  · intro ht
    rw [ht] at hfv
    simp only [bumpLines, ht, hfv]
    rw [if_neg (by simp)]
    rfl
/-- Claim C6, witness: scenario B, a minor bump of content without a version
line inserts the new line at index 1 and reports the triple `(0,1,0)`. -/
theorem claim6_witness :
    bumpRun ".x.".data "@Taskline codename demo\n\n// body".data
      = some (joinLines (bumpLines BumpType.minor
          (rustLines "@Taskline codename demo\n\n// body".data)),
        applyBump BumpType.minor (0, 0, 0)) :=
  (claim6_absent_version ".x.".data "@Taskline codename demo\n\n// body".data
    BumpType.minor (by decide) (by decide)).1
/-- Claim C9: the rewritten line collection, with the replaced or inserted
version line removed, is exactly the original line collection (with the
replaced line removed when one was found): no other line is added, dropped,
reordered or edited. -/
theorem claim9_frame (bt : BumpType) (ls : List (List Char)) :
    (∀ i v, findVersionLine ls = some (i, v) →
      (bumpLines bt ls).eraseIdx i = ls.eraseIdx i) ∧
    (findVersionLine ls = none →
      (2 ≤ ls.length → (bumpLines bt ls).eraseIdx 1 = ls) ∧
      (ls.length < 2 → (bumpLines bt ls).eraseIdx ls.length = ls)) := by
  constructor
  · intro i v hf
    simp only [bumpLines, hf]
    exact eraseIdx_set ls i _
  · intro hf
    constructor
    · intro hlen
      simp only [bumpLines, hf]
      rw [if_pos hlen]
      rcases ls with _ | ⟨a, _ | ⟨b, t⟩⟩
      · simp at hlen
      · simp at hlen
      · rfl
    · intro hlen
      simp only [bumpLines, hf]
      rw [if_neg (by omega)]
      exact eraseIdx_append_singleton ls _
/-- Claim C9, witness: replacing the found version line of scenario A leaves
all other lines untouched. -/
theorem claim9_witness :
    (bumpLines BumpType.patch
        (rustLines "@Taskline codename demo\n@Taskline version 1.2.3\n\n// body".data)).eraseIdx 1
      = (rustLines "@Taskline codename demo\n@Taskline version 1.2.3\n\n// body".data).eraseIdx 1 :=
  (claim9_frame BumpType.patch
    (rustLines "@Taskline codename demo\n@Taskline version 1.2.3\n\n// body".data)).1
    1 (1, 2, 3) (by decide)
/-- Claim C3, counterexample: the version line the bump engine stores does not
carry the letter-v marker in its value — bumping content holding the line
`@Taskline version 1.2.3` stores `@Taskline version 1.2.4`, whose value part
does not start with the letter v. -/
theorem claim3_counterexample :
    ((bumpLines BumpType.patch
        (rustLines "@Taskline codename demo\n@Taskline version 1.2.3\n\n// body".data)).getD 1 [])
      = "@Taskline version 1.2.4".data ∧
    "@Taskline version v".data.isPrefixOf
      ((bumpLines BumpType.patch
        (rustLines "@Taskline codename demo\n@Taskline version 1.2.3\n\n// body".data)).getD 1 [])
      = false := by
  decide
/-- Claim C3, amended: the version line written at initialization carries the
letter-v marker in its value (`validate_version` only accepts a value starting
with that letter, and the stored line is the marker followed by that value
verbatim), while the bump engine's new version line is the marker followed by
`<major>.<minor>.<patch>` whose value part starts with a digit, never the
letter v. -/
theorem claim3_amended (ver : List Char) (h : validate_version ver = true) :
    ver.head? = some 'v' ∧
    (∀ fn, initHeader fn (some ver) = cTag ++ fn ++ '\n' :: (vTag ++ ver ++ ['\n', '\n'])) ∧
    (∀ a b c : Nat, ∃ d ds, (buildVersionLine (a, b, c)).drop 18 = d :: ds ∧
      d.isDigit = true ∧ d ≠ 'v') := by
  refine ⟨?_, fun fn => rfl, ?_⟩
  · rcases ver with _ | ⟨c, rest⟩
    · exact absurd h (by decide)
    · by_cases hc : c = 'v'
      · subst hc; rfl
      · exfalso
        simp only [validate_version] at h
        split at h
        all_goals simp [hc] at h
  · intro a b c
    obtain ⟨d, ds, hd, hdig⟩ := head_natDecDigits_digit a
    refine ⟨d, ds ++ '.' :: (natDecDigits b ++ '.' :: natDecDigits c), ?_, hdig,
      (not_isDigit_c hdig).2.2.2.2⟩
    have e : (buildVersionLine (a, b, c)).drop 18
        = natDecDigits a ++ '.' :: (natDecDigits b ++ '.' :: natDecDigits c) := by
      show (vTag ++ (natDecDigits a ++ '.' :: (natDecDigits b ++ '.' :: natDecDigits c))).drop 18
          = _
      exact drop_vTag _
    rw [e, hd]
    simp
/-- Claim C3, witness: the value `v1.2.3` passes validation and starts with the letter v. -/
theorem claim3_witness :
    ("v1.2.3".data.head? = some 'v') ∧
    (∀ fn, initHeader fn (some "v1.2.3".data)
      = cTag ++ fn ++ '\n' :: (vTag ++ "v1.2.3".data ++ ['\n', '\n'])) ∧
    (∀ a b c : Nat, ∃ d ds, (buildVersionLine (a, b, c)).drop 18 = d :: ds ∧
      d.isDigit = true ∧ d ≠ 'v') :=
  claim3_amended "v1.2.3".data (by decide)
/-- Claim C5, counterexample: rendering a header whose codename contains a
newline and parsing it back does not reproduce the codename, so the round trip
fails for some headers. -/
theorem claim5_counterexample :
    (TasklineMetadata.parse
        (TasklineMetadata.to_header ⟨"a\n@Taskline codename b".data, none⟩)).codename
      ≠ "a\n@Taskline codename b".data := by
  decide
/-- Claim C5, amended: for headers whose codename contains no newline and does
not end in a carriage return (version components in `u32` range, automatic for
the Rust `u32` fields), parsing the rendered header reproduces the header, and
the rendered text consists of the codename line, then the version line exactly
when a version is present, then a blank line, in that order. -/
theorem claim5_amended (m : TasklineMetadata)
    (hn : '\n' ∉ m.codename) (hr : m.codename.getLast? ≠ some '\r')
    (hv : ∀ v ∈ m.version, v.major < u32Mod ∧ v.minor < u32Mod ∧ v.patch < u32Mod) :
    TasklineMetadata.parse (TasklineMetadata.to_header m) = m ∧
    rustLines (TasklineMetadata.to_header m)
      = (match m.version with
         | some v => [cTag ++ m.codename, vTag ++ Version.format v, []]
         | none => [cTag ++ m.codename, []]) := by
  have hlines := rustLines_to_header m hn hr
  refine ⟨?_, hlines⟩
  obtain ⟨cn, ver⟩ := m
  rcases ver with _ | v
  · have hlines2 : rustLines (TasklineMetadata.to_header ⟨cn, none⟩)
        = [cTag ++ cn, []] := hlines
    simp only [TasklineMetadata.parse]
    rw [hlines2]
    simp only [List.foldl_cons, List.foldl_nil]
    rw [parseStep_codenameLine, parseStep_nilLine]
  · obtain ⟨hv1, hv2, hv3⟩ := hv v rfl
    have hlines2 : rustLines (TasklineMetadata.to_header ⟨cn, some v⟩)
        = [cTag ++ cn, vTag ++ Version.format v, []] := hlines
    simp only [TasklineMetadata.parse]
    rw [hlines2]
    simp only [List.foldl_cons, List.foldl_nil]
    rw [parseStep_codenameLine, parseStep_versionLine _ v hv1 hv2 hv3, parseStep_nilLine]
/-- Claim C5, witness: round trip of the header `demo` with version `1.2.3`. -/
theorem claim5_witness :
    TasklineMetadata.parse (TasklineMetadata.to_header ⟨"demo".data, some ⟨1, 2, 3⟩⟩)
      = ⟨"demo".data, some ⟨1, 2, 3⟩⟩ :=
  (claim5_amended ⟨"demo".data, some ⟨1, 2, 3⟩⟩ (by decide) (by decide)
    (fun v hv => by
      simp only [Option.mem_def, Option.some.injEq] at hv
      subst hv
      exact ⟨by decide, by decide, by decide⟩)).1
end Taskline
